import Mathlib

/-!
Verification development for the FCR PDF-splitting application
(src/Project.py).  The Python source is shallowly embedded:

* the range segmenter `find_fcr_ranges` (lines 54-96) becomes a fold
  over a list of per-page observations (`PageObs`), with the Python
  dict embedded as an insertion-ordered association list whose update
  keeps the original position of an existing key (`dictInsert`);
* the identifier matcher (lines 72-83) becomes three executable
  pattern matchers over `List Char` plus a leftmost scan, mirroring
  `re.findall(...)[0]`;
* the per-page text extractor `extract_text_from_page` (lines 23-52)
  becomes a total function over an environment describing the outcomes
  of the library collaborators, exceptions modelled by `Option`;
* the splitter `split_pdf_by_fcr_ranges` (lines 98-121) and
  `create_zip` (lines 123-128) become pure functions over a document
  given as a list of pages.
-/

namespace FCR

/-- A per-page observation, as seen by the segmentation loop of
`find_fcr_ranges`: either the extracted text was falsy (empty), which the
loop skips entirely (`if not text: continue`, lines 68-69), or the text
was non-empty and pattern matching produced `found` (lines 72-83). -/
inductive PageObs where
  | empty : PageObs
  | seen : Option String → PageObs
deriving DecidableEq, Repr

/-- The mutable state of the loop in `find_fcr_ranges` (lines 56-58):
`fcr_ranges = {}`, `current_fcr = None`, `start_page = 0`.  The Python
dict is an insertion-ordered association list. -/
structure SegState where
  fcr_ranges : List (String × Nat × Nat)
  current_fcr : Option String
  start_page : Nat
deriving DecidableEq, Repr

/-- Python dict assignment `d[k] = v` for an insertion-ordered
association list: if the key is present its value is replaced in place
(keeping its position), otherwise the pair is appended at the end. -/
def dictInsert (m : List (String × Nat × Nat)) (k : String) (v : Nat × Nat) :
    List (String × Nat × Nat) :=
  if m.any (fun p => p.1 = k) then
    m.map (fun p => if p.1 = k then (k, v) else p)
  else
    m ++ [(k, v)]

/-- Lines 86-90 of the source, the branch taken when a truthy
`found_fcr` differs from `current_fcr`: finalize the previous open range
at `page_num - 1` (if one was open) and open a new range at `page_num`. -/
def closeOpen (st : SegState) (page_num : Nat) (f : String) : SegState :=
  { fcr_ranges :=
      match st.current_fcr with
      | some c => dictInsert st.fcr_ranges c (st.start_page, page_num - 1)
      | none => st.fcr_ranges,
    current_fcr := some f,
    start_page := page_num }

/-- Lines 85-90: `if found_fcr and found_fcr != current_fcr`.  Python
truthiness of `found_fcr` means it is not `None` and not the empty
string. -/
def transStep (st : SegState) (page_num : Nat) (found_fcr : Option String) :
    SegState :=
  match found_fcr with
  | some f =>
      if f ≠ "" ∧ st.current_fcr ≠ some f then closeOpen st page_num f else st
  | none => st

/-- Lines 92-94, the special case for the last page: if
`page_num == total_pages - 1` and a range is open, close it at
`page_num`. -/
def lastClose (total_pages : Nat) (st : SegState) (page_num : Nat) : SegState :=
  if page_num = total_pages - 1 then
    match st.current_fcr with
    | some c =>
        { st with fcr_ranges := dictInsert st.fcr_ranges c (st.start_page, page_num) }
    | none => st
  else st

/-- One iteration of the `for page_num in range(total_pages)` loop
(lines 64-94).  An `empty` observation is skipped entirely by the
`continue` on line 69, including the last-page special case. -/
def stepPage (total_pages : Nat) (st : SegState) (page_num : Nat) (o : PageObs) :
    SegState :=
  match o with
  | .empty => st
  | .seen found_fcr => lastClose total_pages (transStep st page_num found_fcr) page_num

/-- The loop of `find_fcr_ranges`, processing the remaining observations
starting at index `page_num`. -/
def runPages (total_pages : Nat) : SegState → Nat → List PageObs → SegState
  | st, _, [] => st
  | st, page_num, o :: rest =>
      runPages total_pages (stepPage total_pages st page_num o) (page_num + 1) rest

/-- The initial state of `find_fcr_ranges` (lines 56-58). -/
def initState : SegState := { fcr_ranges := [], current_fcr := none, start_page := 0 }

/-- The range segmenter: `find_fcr_ranges` specialized to a sequence of
per-page observations; returns the final `fcr_ranges` map (line 96). -/
def segment (obs : List PageObs) : List (String × Nat × Nat) :=
  (runPages obs.length initState 0 obs).fcr_ranges

/-- Index of the first page whose observation is a truthy detected
identifier (the first page where `found_fcr and found_fcr != current_fcr`
can fire with `current_fcr = None`). -/
def detects : PageObs → Bool
  | .seen (some f) => f ≠ ""
  | _ => false

def firstDetectAux (i : Nat) : List PageObs → Option Nat
  | [] => none
  | o :: rest => if detects o then some i else firstDetectAux (i + 1) rest

/-- The page index of the first detected identifier in an observation
sequence, if any. -/
def firstDetect (obs : List PageObs) : Option Nat :=
  firstDetectAux 0 obs

/-- An inclusive page range `r = (start, end)` covers page index `i`. -/
def covers (r : Nat × Nat) (i : Nat) : Prop := r.1 ≤ i ∧ i ≤ r.2

instance (r : Nat × Nat) (i : Nat) : Decidable (covers r i) := by
  unfold covers; infer_instance

/-! ### The identifier matcher (lines 72-83)

The three regular expressions are embedded as executable matchers over
`List Char`.  For each pattern, greedy maximal munch of every quantified
subterm is equivalent to Python's backtracking search because each
quantified character class is disjoint from every character the rest of
the pattern could need at that point; the embedding therefore matches
deterministically.  `re.IGNORECASE` is modelled on the ASCII letters. -/

/-- Python `\s` (ASCII reading): space, tab, newline, carriage return,
vertical tab, form feed. -/
def pyIsSpace (c : Char) : Bool :=
  c = ' ' || c = '\t' || c = '\n' || c = '\x0d' || c = '\x0b' || c = '\x0c'

def isAZ (c : Char) : Bool := 'A' ≤ c && c ≤ 'Z'

def isaz (c : Char) : Bool := 'a' ≤ c && c ≤ 'z'

def isDigit09 (c : Char) : Bool := '0' ≤ c && c ≤ '9'

/-- The class `[A-Z0-9]` under `re.IGNORECASE`. -/
def inAZ09 (c : Char) : Bool := isAZ c || isaz c || isDigit09 c

/-- The class `[\(\d+\)]`: one character among parentheses, digits and
the plus sign. -/
def inParenClass (c : Char) : Bool := c = '(' || c = ')' || c = '+' || isDigit09 c

/-- The class `[.:]`. -/
def isDotColon (c : Char) : Bool := c = '.' || c = ':'

/-- The class `[\s:]`. -/
def isSpaceColon (c : Char) : Bool := pyIsSpace c || c = ':'

/-- Match a literal (case-insensitively) at the head of the input,
returning the rest of the input. -/
def matchLitCI : List Char → List Char → Option (List Char)
  | [], cs => some cs
  | _ :: _, [] => none
  | p :: ps, c :: cs => if c.toUpper = p.toUpper then matchLitCI ps cs else none

/-- A `+`-quantified character class in capture position: greedy
maximal munch, failing on zero characters; returns the capture and the
rest. -/
def plusCapture (cls : Char → Bool) (cs : List Char) : Option (List Char × List Char) :=
  match cs.takeWhile cls with
  | [] => none
  | _ :: _ => some (cs.takeWhile cls, cs.dropWhile cls)

/-- A `?`-quantified character class: greedily consume one matching
character if present. -/
def optClass (cls : Char → Bool) : List Char → List Char
  | [] => []
  | c :: cs => if cls c then cs else c :: cs

/-- `RECEIPT\s*NO[.:]?\s*([A-Z0-9]+[\(\d+\)]?)` with `re.IGNORECASE`,
matched at a fixed position; returns the first capture group. -/
def tryP1 (cs : List Char) : Option (List Char) :=
  match matchLitCI ("RECEIPT").data cs with
  | none => none
  | some cs =>
    match matchLitCI ("NO").data (cs.dropWhile pyIsSpace) with
    | none => none
    | some cs =>
      match plusCapture inAZ09 ((optClass isDotColon cs).dropWhile pyIsSpace) with
      | none => none
      | some gr =>
        match gr.2 with
        | c :: _ => if inParenClass c then some (gr.1 ++ [c]) else some gr.1
        | [] => some gr.1

/-- `FCR\s*NO[.:]?\s*([A-Z0-9]+)` with `re.IGNORECASE`, matched at a
fixed position; returns the first capture group. -/
def tryP2 (cs : List Char) : Option (List Char) :=
  match matchLitCI ("FCR").data cs with
  | none => none
  | some cs =>
    match matchLitCI ("NO").data (cs.dropWhile pyIsSpace) with
    | none => none
    | some cs =>
      match plusCapture inAZ09 ((optClass isDotColon cs).dropWhile pyIsSpace) with
      | none => none
      | some gr => some gr.1

/-- The Arabic receipt-number pattern `رقم\s*الإيصال[\s:]*([A-Z0-9]+)`
(written with Unicode escapes), matched at a fixed position; returns
the first capture group. -/
def tryP3 (cs : List Char) : Option (List Char) :=
  match matchLitCI ("رقم").data cs with
  | none => none
  | some cs =>
    match matchLitCI ("الإيصال").data (cs.dropWhile pyIsSpace) with
    | none => none
    | some cs =>
      match plusCapture inAZ09 (cs.dropWhile isSpaceColon) with
      | none => none
      | some gr => some gr.1

/-- `re.findall(p, text)[0]` for a non-empty result: the capture at the
leftmost position where the pattern matches (Python's scan tries each
start position from the left). -/
def findFirst (tryAt : List Char → Option (List Char)) : List Char → Option (List Char)
  | [] => tryAt []
  | c :: cs =>
    match tryAt (c :: cs) with
    | some g => some g
    | none => findFirst tryAt cs

/-- Lines 78-83 of the source: try the three patterns in order; the
first one whose `re.findall` result is non-empty supplies `matches[0]`;
otherwise `found_fcr` stays `None`. -/
def matchFcr (text : String) : Option String :=
  match findFirst tryP1 text.data with
  | some g => some (String.mk g)
  | none =>
    match findFirst tryP2 text.data with
    | some g => some (String.mk g)
    | none =>
      match findFirst tryP3 text.data with
      | some g => some (String.mk g)
      | none => none

/-- The per-page head of the loop of `find_fcr_ranges`: `if not text:
continue` (lines 68-69), otherwise pattern matching (lines 72-83). -/
def obsOfText (t : String) : PageObs :=
  if t = "" then .empty else .seen (matchFcr t)

/-- `find_fcr_ranges` as a function of the extracted text of each
page. -/
def find_fcr_ranges (page_texts : List String) : List (String × Nat × Nat) :=
  segment (page_texts.map obsOfText)

/-! ### The splitter and the archive builder (lines 98-128) -/

/-- Python `\w` (ASCII reading): letters, digits, underscore. -/
def pyIsWord (c : Char) : Bool := isAZ c || isaz c || isDigit09 c || c = '_'

/-- The complement of the class `[^\w\-_\. ]` of line 107: the safe
characters that `re.sub` leaves unchanged. -/
def safeChar (c : Char) : Bool :=
  pyIsWord c || c = '-' || c = '_' || c = '.' || c = ' '

/-- `re.sub(r'[^\w\-_\. ]', '_', str(fcr_num))` (line 107). -/
def clean_fcr_num (s : String) : String :=
  String.mk (s.data.map (fun c => if safeChar c then c else '_'))

/-- The output filename `f"FCR_{clean_fcr_num}.pdf"` (lines 108, 119). -/
def fcrFileName (fcr_num : String) : String :=
  "FCR_" ++ clean_fcr_num fcr_num ++ ".pdf"

/-- `range(start, end + 1)` (line 112). -/
def pageIndices (s e : Nat) : List Nat :=
  (List.range (e + 1 - s)).map (fun j => s + j)

/-- One output of the splitter: its filename, the path it was written
to, and the pages it contains. -/
structure OutFile (α : Type) where
  filename : String
  path : String
  pages : List α
deriving DecidableEq, Repr

/-- `split_pdf_by_fcr_ranges` (lines 98-121) over a document given as
its list of pages: one output per map entry, in map order, named
`FCR_<sanitized>.pdf`, at `os.path.join(output_dir, filename)`,
containing the source pages `range(start, end + 1)`. -/
def split_pdf_by_fcr_ranges {α : Type} [Inhabited α] (pages : List α)
    (fcr_ranges : List (String × Nat × Nat)) (output_dir : String) :
    List (OutFile α) :=
  fcr_ranges.map (fun e =>
    let cleaned := clean_fcr_num e.1
    { filename := "FCR_" ++ cleaned ++ ".pdf",
      path := output_dir ++ "/" ++ ("FCR_" ++ cleaned ++ ".pdf"),
      pages := (pageIndices e.2.1 e.2.2).map (fun i => pages.getD i default) })

/-- Writing a file: last write wins per path, keeping the position of
an existing path (lines 116-117). -/
def writeFile {α : Type} (disk : List (String × List α)) (path : String)
    (content : List α) : List (String × List α) :=
  if disk.any (fun p => p.1 = path) then
    disk.map (fun p => if p.1 = path then (path, content) else p)
  else disk ++ [(path, content)]

/-- The disk after the splitter has written all its outputs. -/
def writeAll {α : Type} (disk : List (String × List α)) (files : List (OutFile α)) :
    List (String × List α) :=
  files.foldl (fun d f => writeFile d f.path f.pages) disk

def readFile {α : Type} (disk : List (String × List α)) (path : String) :
    Option (List α) :=
  (disk.find? (fun p => p.1 = path)).map (fun p => p.2)

/-- `create_zip` (lines 123-128): one archive entry per element of
`output_files`, in order, named by the filename, with the bytes read
from the file's path on the disk. -/
def create_zip {α : Type} (output_files : List (OutFile α))
    (disk : List (String × List α)) : List (String × Option (List α)) :=
  output_files.map (fun f => (f.filename, readFile disk f.path))

/-! ### The page-text extractor (lines 23-52) -/

/-- Python `str.strip()` (ASCII whitespace reading). -/
def pystrip (s : String) : String :=
  String.mk (((s.data.dropWhile pyIsSpace).reverse.dropWhile pyIsSpace).reverse)

/-- Outcomes of the library collaborators used by
`extract_text_from_page`; `none` (or `false`) models a raised
exception. -/
structure PageEnv (Img : Type) where
  extract_text : Option String
  write_ok : Bool
  convert_from_path : Nat → String → Option (List Img)
  image_to_string : Img → String → Option String

/-- What `extract_text_from_page` produces: the returned text, whether
a diagnostic went to the caller's error channel (`st.error`, line 51),
and whether `pytesseract.image_to_string` ran. -/
structure ExtractOut where
  text : String
  errorReported : Bool
  ocrRan : Bool
deriving DecidableEq, Repr

/-- `extract_text_from_page` (lines 23-52): direct extraction first and
the test `if text and text.strip()` (lines 27-29); otherwise write the
single-page temporary (lines 32-36), rasterize at 300 DPI in jpeg
format (lines 38-43), OCR the first image with languages `eng+ara`
(lines 45-46) or return `""` when no image came back (line 48); any
raised failure is caught, reported, and turned into `""`
(lines 50-52). -/
def extract_text_from_page {Img : Type} (env : PageEnv Img) : ExtractOut :=
  match env.extract_text with
  | none => { text := "", errorReported := true, ocrRan := false }
  | some text =>
    if text ≠ "" ∧ pystrip text ≠ "" then
      { text := text, errorReported := false, ocrRan := false }
    else if env.write_ok = false then
      { text := "", errorReported := true, ocrRan := false }
    else
      match env.convert_from_path 300 "jpeg" with
      | none => { text := "", errorReported := true, ocrRan := false }
      | some [] => { text := "", errorReported := false, ocrRan := false }
      | some (img :: _) =>
        match env.image_to_string img "eng+ara" with
        | none => { text := "", errorReported := true, ocrRan := true }
        | some s => { text := s, errorReported := false, ocrRan := true }

/-! ### Ghost-instrumented segmenter

`SegStateH` extends the source's loop state with two ghost fields that
the map computation never reads: `hist` records every range ever
written into `fcr_ranges` (in emission order, including ranges later
overwritten), and `firstD` records the page index of the first
detection.  `stepPageH` performs exactly the source's transitions on
the non-ghost fields; `runPagesH_toPlain` proves it. -/

structure SegStateH where
  fcr_ranges : List (String × Nat × Nat)
  current_fcr : Option String
  start_page : Nat
  hist : List (String × Nat × Nat)
  firstD : Option Nat
deriving DecidableEq, Repr

def SegStateH.toPlain (st : SegStateH) : SegState :=
  { fcr_ranges := st.fcr_ranges, current_fcr := st.current_fcr,
    start_page := st.start_page }

def closeOpenH (st : SegStateH) (page_num : Nat) (f : String) : SegStateH :=
  { fcr_ranges :=
      match st.current_fcr with
      | some c => dictInsert st.fcr_ranges c (st.start_page, page_num - 1)
      | none => st.fcr_ranges,
    current_fcr := some f,
    start_page := page_num,
    hist :=
      match st.current_fcr with
      | some c => st.hist ++ [(c, st.start_page, page_num - 1)]
      | none => st.hist,
    firstD :=
      match st.firstD with
      | some f0 => some f0
      | none => some page_num }

def transStepH (st : SegStateH) (page_num : Nat) (found_fcr : Option String) :
    SegStateH :=
  match found_fcr with
  | some f =>
      if f ≠ "" ∧ st.current_fcr ≠ some f then closeOpenH st page_num f else st
  | none => st

def lastCloseH (total_pages : Nat) (st : SegStateH) (page_num : Nat) : SegStateH :=
  if page_num = total_pages - 1 then
    match st.current_fcr with
    | some c =>
        { st with
          fcr_ranges := dictInsert st.fcr_ranges c (st.start_page, page_num),
          hist := st.hist ++ [(c, st.start_page, page_num)] }
    | none => st
  else st

def stepPageH (total_pages : Nat) (st : SegStateH) (page_num : Nat) (o : PageObs) :
    SegStateH :=
  match o with
  | .empty => st
  | .seen found_fcr => lastCloseH total_pages (transStepH st page_num found_fcr) page_num

def runPagesH (total_pages : Nat) : SegStateH → Nat → List PageObs → SegStateH
  | st, _, [] => st
  | st, page_num, o :: rest =>
      runPagesH total_pages (stepPageH total_pages st page_num o) (page_num + 1) rest

def initStateH : SegStateH :=
  { fcr_ranges := [], current_fcr := none, start_page := 0, hist := [], firstD := none }

/-- The instrumented final state of the segmenter on an observation
sequence. -/
def finalStateH (obs : List PageObs) : SegStateH :=
  runPagesH obs.length initStateH 0 obs

/-- All ranges the segmenter ever emitted into the map, in emission
order, including the ones later overwritten. -/
def histOf (obs : List PageObs) : List (String × Nat × Nat) :=
  (finalStateH obs).hist

/-! ### Invariants used in the proofs -/

/-- Loop invariant of the segmenter, holding before page `i` is
processed: every range in the map is well-formed and ends before the
open range's start page, ranges with distinct keys are disjoint, keys
are unique, the map is empty while no identifier has been detected, and
an open range started on an already-processed page. -/
def SegInv (i : Nat) (st : SegState) : Prop :=
  (∀ p ∈ st.fcr_ranges, p.2.1 ≤ p.2.2 ∧ p.2.2 < st.start_page) ∧
  (∀ p ∈ st.fcr_ranges, ∀ q ∈ st.fcr_ranges, p.1 ≠ q.1 →
      p.2.2 < q.2.1 ∨ q.2.2 < p.2.1) ∧
  (st.fcr_ranges.map Prod.fst).Nodup ∧
  (st.current_fcr = none → st.fcr_ranges = []) ∧
  (∀ c, st.current_fcr = some c → st.start_page < i)

/-- What holds of the final map of a run over `n` pages: ranges are
well-formed and within `[0, n)`, ranges with distinct keys are
disjoint, and keys are unique. -/
def RangesGood (n : Nat) (l : List (String × Nat × Nat)) : Prop :=
  (∀ p ∈ l, p.2.1 ≤ p.2.2 ∧ p.2.2 < n) ∧
  (∀ p ∈ l, ∀ q ∈ l, p.1 ≠ q.1 → p.2.2 < q.2.1 ∨ q.2.2 < p.2.1) ∧
  (l.map Prod.fst).Nodup

/-- Coverage invariant of the instrumented segmenter, holding before
page `i` is processed: while no identifier has been detected everything
is empty; once one is open, `firstD` holds the first detection page and
every processed page from `firstD` on is covered by an emitted range or
by the open range. -/
def HInv (i : Nat) (st : SegStateH) : Prop :=
  (st.current_fcr = none → st.fcr_ranges = [] ∧ st.hist = [] ∧ st.firstD = none) ∧
  (∀ c, st.current_fcr = some c →
    ∃ f0, st.firstD = some f0 ∧ f0 ≤ st.start_page ∧ st.start_page < i ∧
      ∀ j, j < i → j < f0 ∨ (∃ p ∈ st.hist, covers p.2 j) ∨ st.start_page ≤ j)

/-- The pages of the source document covered by some range of the map,
in original document order. -/
def coveredPages {α : Type} [Inhabited α] (doc : List α)
    (m : List (String × Nat × Nat)) : List α :=
  ((List.range doc.length).filter
      (fun i => decide (∃ e ∈ m, covers e.2 i))).map (fun i => doc.getD i default)

end FCR

/-! ## Theorems -/

namespace FCR

/-! ### Facts about `dictInsert` -/

theorem mem_dictInsert {m : List (String × Nat × Nat)} {k : String} {v : Nat × Nat}
    {p : String × Nat × Nat} (h : p ∈ dictInsert m k v) : p = (k, v) ∨ p ∈ m := by
  unfold dictInsert at h
  split at h
  · rcases List.mem_map.1 h with ⟨q, hq, hfq⟩
    by_cases hk : q.1 = k
    · left; rw [if_pos hk] at hfq; exact hfq.symm
    · right; rw [if_neg hk] at hfq; exact hfq ▸ hq
  · rcases List.mem_append.1 h with h | h
    · right; exact h
    · left; simpa using h

theorem self_mem_dictInsert (m : List (String × Nat × Nat)) (k : String) (v : Nat × Nat) :
    (k, v) ∈ dictInsert m k v := by
  unfold dictInsert
  split
  · rename_i h
    rcases List.any_eq_true.1 h with ⟨q, hq, hk⟩
    refine List.mem_map.2 ⟨q, hq, ?_⟩
    rw [if_pos (of_decide_eq_true hk)]
  · exact List.mem_append.2 (Or.inr (List.mem_singleton.2 rfl))

theorem keys_nodup_dictInsert {m : List (String × Nat × Nat)} {k : String}
    {v : Nat × Nat} (h : (m.map Prod.fst).Nodup) :
    ((dictInsert m k v).map Prod.fst).Nodup := by
  unfold dictInsert
  split
  · have heq : (m.map (fun p => if p.1 = k then (k, v) else p)).map Prod.fst
        = m.map Prod.fst := by
      rw [List.map_map]
      refine List.map_congr_left (fun q _ => ?_)
      by_cases hk : q.1 = k
      · simp [hk]
      · simp [hk]
    rw [heq]; exact h
  · rename_i hany
    rw [List.map_append]
    refine List.Nodup.append h (List.nodup_singleton k) ?_
    intro a ha hb
    rcases List.mem_map.1 ha with ⟨q, hq, hfq⟩
    have : a = k := by simpa using hb
    subst this
    exact absurd (List.any_eq_true.2 ⟨q, hq, decide_eq_true hfq⟩) hany

/-! ### Preservation of the segmenter invariant -/

theorem segInv_mono {i j : Nat} {st : SegState} (h : SegInv i st) (hij : i ≤ j) :
    SegInv j st := by
  obtain ⟨h1, h2, h3, h4, h5⟩ := h
  exact ⟨h1, h2, h3, h4, fun c hc => lt_of_lt_of_le (h5 c hc) hij⟩

theorem closeOpen_inv {i : Nat} {st : SegState} {f : String} (h : SegInv i st) :
    SegInv (i + 1) (closeOpen st i f) := by
  obtain ⟨h1, h2, h3, h4, h5⟩ := h
  cases hcur : st.current_fcr with
  | none =>
      have hr : st.fcr_ranges = [] := h4 hcur
      refine ⟨?_, ?_, ?_, ?_, ?_⟩ <;>
        simp [closeOpen, hcur, hr, Nat.lt_succ_iff]
  | some c =>
      have hlt : st.start_page < i := h5 c hcur
      have hmem : ∀ p ∈ (closeOpen st i f).fcr_ranges,
          p = (c, st.start_page, i - 1) ∨ p ∈ st.fcr_ranges := by
        intro p hp
        simp only [closeOpen, hcur] at hp
        exact mem_dictInsert hp
      refine ⟨?_, ?_, ?_, ?_, ?_⟩
      · intro p hp
        rcases hmem p hp with rfl | hp'
        · simp only [closeOpen]
          constructor <;> omega
        · have := h1 p hp'
          simp only [closeOpen]
          omega
      · intro p hp q hq hne
        rcases hmem p hp with rfl | hp' <;> rcases hmem q hq with rfl | hq'
        · exact absurd rfl hne
        · right
          have := h1 q hq'
          simp only at hne ⊢
          omega
        · left
          have := h1 p hp'
          simp only at hne ⊢
          omega
        · exact h2 p hp' q hq' hne
      · simp only [closeOpen, hcur]
        exact keys_nodup_dictInsert h3
      · intro hnone
        simp [closeOpen] at hnone
      · intro c' hc'
        simp only [closeOpen] at hc' ⊢
        omega

theorem transStep_inv {i : Nat} {st : SegState} {found : Option String}
    (h : SegInv i st) : SegInv (i + 1) (transStep st i found) := by
  unfold transStep
  cases found with
  | none => exact segInv_mono h (Nat.le_succ i)
  | some f =>
      show SegInv (i + 1)
        (if f ≠ "" ∧ st.current_fcr ≠ some f then closeOpen st i f else st)
      by_cases hc : f ≠ "" ∧ st.current_fcr ≠ some f
      · rw [if_pos hc]; exact closeOpen_inv h
      · rw [if_neg hc]; exact segInv_mono h (Nat.le_succ i)

theorem segInv_good {i n : Nat} {st : SegState} (h : SegInv i st) (hin : i ≤ n) :
    RangesGood n st.fcr_ranges := by
  obtain ⟨h1, h2, h3, h4, h5⟩ := h
  refine ⟨?_, h2, h3⟩
  intro p hp
  cases hcur : st.current_fcr with
  | none => rw [h4 hcur] at hp; cases hp
  | some c =>
      have := h5 c hcur
      have := h1 p hp
      constructor <;> omega

theorem lastClose_good {i n : Nat} {st : SegState} (h : SegInv (i + 1) st) :
    RangesGood (i + 1) (lastClose n st i).fcr_ranges := by
  unfold lastClose
  split
  · cases hcur : st.current_fcr with
    | none => exact segInv_good h (le_refl _)
    | some c =>
        obtain ⟨h1, h2, h3, h4, h5⟩ := h
        have hlt : st.start_page < i + 1 := h5 c hcur
        have hmem : ∀ p ∈ dictInsert st.fcr_ranges c (st.start_page, i),
            p = (c, st.start_page, i) ∨ p ∈ st.fcr_ranges := fun p hp => mem_dictInsert hp
        refine ⟨?_, ?_, ?_⟩
        · intro p hp
          rcases hmem p hp with rfl | hp'
          · show st.start_page ≤ i ∧ i < i + 1
            omega
          · have := h1 p hp'
            constructor <;> omega
        · intro p hp q hq hne
          rcases hmem p hp with rfl | hp' <;> rcases hmem q hq with rfl | hq'
          · exact absurd rfl hne
          · right
            have := h1 q hq'
            simp only at hne ⊢
            omega
          · left
            have := h1 p hp'
            simp only at hne ⊢
            omega
          · exact h2 p hp' q hq' hne
        · exact keys_nodup_dictInsert h3
  · exact segInv_good h (le_refl _)

theorem lastClose_ne {n i : Nat} (st : SegState) (h : i ≠ n - 1) :
    lastClose n st i = st := by
  unfold lastClose
  rw [if_neg h]

theorem runPages_good (n : Nat) :
    ∀ (rest : List PageObs) (i : Nat) (st : SegState),
      i + rest.length = n → SegInv i st →
      RangesGood n (runPages n st i rest).fcr_ranges := by
  intro rest
  induction rest with
  | nil =>
      intro i st hlen h
      simp only [List.length_nil, Nat.add_zero] at hlen
      subst hlen
      exact segInv_good h (le_refl _)
  | cons o rest' ih =>
      intro i st hlen h
      simp only [List.length_cons] at hlen
      show RangesGood n (runPages n (stepPage n st i o) (i + 1) rest').fcr_ranges
      cases o with
      | empty =>
          exact ih (i + 1) st (by omega) (segInv_mono h (Nat.le_succ i))
      | seen found =>
          have h1 : SegInv (i + 1) (transStep st i found) := transStep_inv h
          by_cases hi : i = n - 1
          · have hrest : rest' = [] := by
              cases rest' with
              | nil => rfl
              | cons a l => simp only [List.length_cons] at hlen; omega
            subst hrest
            have hn : i + 1 = n := by omega
            show RangesGood n (lastClose n (transStep st i found) i).fcr_ranges
            rw [← hn]
            exact lastClose_good h1
          · show RangesGood n
              (runPages n (lastClose n (transStep st i found) i) (i + 1) rest').fcr_ranges
            rw [lastClose_ne _ hi]
            exact ih (i + 1) (transStep st i found) (by omega) h1

theorem segInv_init : SegInv 0 initState := by
  refine ⟨?_, ?_, ?_, ?_, ?_⟩ <;> simp [initState, SegState.fcr_ranges]

/-- The final map of the segmenter is always well-formed: ranges lie in
`[0, total_pages)` with `start ≤ end`, ranges with distinct keys are
disjoint, and keys are unique. -/
theorem segment_ranges_good (obs : List PageObs) :
    RangesGood obs.length (segment obs) :=
  runPages_good obs.length obs 0 initState (by simp) segInv_init

/-- Claim C2: on every input sequence of page observations, every range
in the map returned by the segmenter satisfies `start ≤ end`, and no
page index is covered by the ranges of two distinct identifiers. -/
theorem segment_ranges_wf_and_disjoint (obs : List PageObs) :
    (∀ p ∈ segment obs, p.2.1 ≤ p.2.2) ∧
    (∀ p ∈ segment obs, ∀ q ∈ segment obs, p.1 ≠ q.1 →
      ∀ i, ¬ (covers p.2 i ∧ covers q.2 i)) := by
  obtain ⟨h1, h2, _⟩ := segment_ranges_good obs
  refine ⟨fun p hp => (h1 p hp).1, ?_⟩
  intro p hp q hq hne i hcov
  obtain ⟨⟨hp1, hp2⟩, hq1, hq2⟩ := hcov
  rcases h2 p hp q hq hne with h | h <;> omega

/-- Witness for C2, on spec Scenario A: in
`segment [(0,X),(1,X),(2,Y),(3,none),(4,Y)] = [X:(0,1), Y:(2,4)]` the
range of `X` is well-formed and no page is shared with `Y`'s range. -/
theorem segment_ranges_wf_and_disjoint_witness :
    ("X", (0, 1)) ∈ segment [PageObs.seen (some ("X")), PageObs.seen (some ("X")),
        PageObs.seen (some ("Y")), PageObs.seen none, PageObs.seen (some ("Y"))] ∧
    ("Y", (2, 4)) ∈ segment [PageObs.seen (some ("X")), PageObs.seen (some ("X")),
        PageObs.seen (some ("Y")), PageObs.seen none, PageObs.seen (some ("Y"))] ∧
    (0 ≤ 1 ∧ ¬ (covers (0, 1) 1 ∧ covers (2, 4) 1)) := by
  have h := segment_ranges_wf_and_disjoint [PageObs.seen (some ("X")),
    PageObs.seen (some ("X")), PageObs.seen (some ("Y")), PageObs.seen none,
    PageObs.seen (some ("Y"))]
  exact ⟨by decide, by decide,
    h.1 ("X", (0, 1)) (by decide),
    h.2 ("X", (0, 1)) (by decide) ("Y", (2, 4)) (by decide) (by decide) 1⟩

/-! ### Claim C1: closing the open range at the final page -/

theorem runPages_append (n : Nat) (l1 l2 : List PageObs) (st : SegState) (i : Nat) :
    runPages n st i (l1 ++ l2) = runPages n (runPages n st i l1) (i + l1.length) l2 := by
  induction l1 generalizing st i with
  | nil => simp [runPages]
  | cons o l ih =>
      show runPages n (stepPage n st i o) (i + 1) (l ++ l2) = _
      rw [ih]
      congr 1
      simp only [List.length_cons]
      omega

theorem transStep_current_some {st : SegState} {i : Nat} {found : Option String}
    {c : String} (h : st.current_fcr = some c) :
    ∃ c', (transStep st i found).current_fcr = some c' := by
  unfold transStep
  cases found with
  | none => exact ⟨c, h⟩
  | some f =>
      show ∃ c',
        (if f ≠ "" ∧ st.current_fcr ≠ some f then closeOpen st i f else st).current_fcr
          = some c'
      by_cases hc : f ≠ "" ∧ st.current_fcr ≠ some f
      · rw [if_pos hc]; exact ⟨f, rfl⟩
      · rw [if_neg hc]; exact ⟨c, h⟩

/-- Counterexample to claim C1 as stated: on the observation sequence
`[(0, "A"), (1, empty text)]` a range for `"A"` is open when the final
page is processed, but because the final page's extracted text is empty
the `continue` on line 69 skips the last-page special case of lines
92-94: the returned map is empty, and no range ending at the final page
index is emitted. -/
theorem open_range_dropped_on_empty_final_page :
    (runPages 2 initState 0 [PageObs.seen (some ("A"))]).current_fcr = some ("A") ∧
    segment [PageObs.seen (some ("A")), PageObs.empty] = [] ∧
    ¬ ∃ k s, (k, s, 1) ∈ segment [PageObs.seen (some ("A")), PageObs.empty] := by
  refine ⟨by decide, by decide, ?_⟩
  rintro ⟨k, s, hmem⟩
  have hempty : segment [PageObs.seen (some ("A")), PageObs.empty] = [] := by decide
  rw [hempty] at hmem
  cases hmem

/-- Amended claim C1: if a range is open when the final page is reached
and the final page's extracted text is non-empty, then some range is
closed at the final page index and emitted into the returned map,
whatever that page's detection result is (same identifier, a new
identifier, or no match).  If the final page's extracted text is empty,
the open range is silently dropped instead. -/
theorem open_range_closed_at_final_page (obs : List PageObs) (o : PageObs) (c : String)
    (hopen : (runPages (obs.length + 1) initState 0 obs).current_fcr = some c)
    (hne : o ≠ PageObs.empty) :
    ∃ k s, (k, s, obs.length) ∈ segment (obs ++ [o]) := by
  have hlen : (obs ++ [o]).length = obs.length + 1 := by simp
  unfold segment
  rw [hlen, runPages_append]
  simp only [Nat.zero_add]
  show ∃ k s, (k, s, obs.length) ∈
    (stepPage (obs.length + 1) (runPages (obs.length + 1) initState 0 obs)
        obs.length o).fcr_ranges
  cases o with
  | empty => exact absurd rfl hne
  | seen found =>
      obtain ⟨c', hc'⟩ :=
        @transStep_current_some (runPages (obs.length + 1) initState 0 obs)
          obs.length found c hopen
      show ∃ k s, (k, s, obs.length) ∈
        (lastClose (obs.length + 1)
          (transStep (runPages (obs.length + 1) initState 0 obs) obs.length found)
          obs.length).fcr_ranges
      unfold lastClose
      simp only [Nat.add_sub_cancel, if_true]
      rw [hc']
      exact ⟨c', _, self_mem_dictInsert _ _ _⟩

/-- Witness for the amended C1: on `[(0, "A")]` followed by a final
page with non-empty text and no match, the open range for `"A"` is
closed at page 1. -/
theorem open_range_closed_at_final_page_witness :
    (runPages 2 initState 0 [PageObs.seen (some ("A"))]).current_fcr = some ("A") ∧
    PageObs.seen none ≠ PageObs.empty ∧
    ∃ k s, (k, s, 1) ∈ segment [PageObs.seen (some ("A")), PageObs.seen none] := by
  refine ⟨by decide, by decide, ?_⟩
  exact open_range_closed_at_final_page [PageObs.seen (some ("A"))]
    (PageObs.seen none) ("A") (by decide) (by decide)

/-! ### Claim C4: last-write-wins on re-appearing identifiers -/

/-- Claim C4 (spec Scenario C): on `[(0,"A"),(1,"B"),(2,"A")]` the
segmenter returns `[A:(2,2), B:(1,1)]` — the re-appearance of `A`
opens a new range whose entry overwrites `A`'s earlier `(0,0)` in place
— and page 0 is covered by no range.  The instrumented history shows
the overwritten emission `A:(0,0)`. -/
theorem reappearance_last_write_wins :
    segment [PageObs.seen (some ("A")), PageObs.seen (some ("B")),
        PageObs.seen (some ("A"))] = [("A", 2, 2), ("B", 1, 1)] ∧
    (∀ p ∈ segment [PageObs.seen (some ("A")), PageObs.seen (some ("B")),
        PageObs.seen (some ("A"))], ¬ covers p.2 0) ∧
    histOf [PageObs.seen (some ("A")), PageObs.seen (some ("B")),
        PageObs.seen (some ("A"))] = [("A", 0, 0), ("B", 1, 1), ("A", 2, 2)] := by
  exact ⟨by decide, by decide, by decide⟩

/-- Witness for C4: the entry `A:(2,2)` of the returned map indeed does
not cover page 0. -/
theorem reappearance_last_write_wins_witness :
    ("A", (2, 2)) ∈ segment [PageObs.seen (some ("A")), PageObs.seen (some ("B")),
        PageObs.seen (some ("A"))] ∧
    ¬ covers (2, 2) 0 := by
  refine ⟨by decide, ?_⟩
  exact reappearance_last_write_wins.2.1 ("A", (2, 2)) (by decide)

/-! ### The instrumented run projects onto the source's run -/

theorem closeOpenH_toPlain (st : SegStateH) (i : Nat) (f : String) :
    (closeOpenH st i f).toPlain = closeOpen st.toPlain i f := by
  cases hc : st.current_fcr <;>
    simp [closeOpenH, closeOpen, SegStateH.toPlain, hc]

theorem transStepH_toPlain (st : SegStateH) (i : Nat) (found : Option String) :
    (transStepH st i found).toPlain = transStep st.toPlain i found := by
  cases found with
  | none => rfl
  | some f =>
      show (if f ≠ "" ∧ st.current_fcr ≠ some f then closeOpenH st i f else st).toPlain
        = if f ≠ "" ∧ st.toPlain.current_fcr ≠ some f then closeOpen st.toPlain i f
          else st.toPlain
      by_cases hc : f ≠ "" ∧ st.current_fcr ≠ some f
      · have hc' : f ≠ "" ∧ st.toPlain.current_fcr ≠ some f := hc
        rw [if_pos hc, if_pos hc']
        exact closeOpenH_toPlain st i f
      · have hc' : ¬ (f ≠ "" ∧ st.toPlain.current_fcr ≠ some f) := hc
        rw [if_neg hc, if_neg hc']

theorem lastCloseH_toPlain (n : Nat) (st : SegStateH) (i : Nat) :
    (lastCloseH n st i).toPlain = lastClose n st.toPlain i := by
  unfold lastCloseH lastClose
  by_cases hi : i = n - 1
  · rw [if_pos hi, if_pos hi]
    cases hc : st.current_fcr <;>
      simp [SegStateH.toPlain, hc]
  · rw [if_neg hi, if_neg hi]

theorem stepPageH_toPlain (n : Nat) (st : SegStateH) (i : Nat) (o : PageObs) :
    (stepPageH n st i o).toPlain = stepPage n st.toPlain i o := by
  cases o with
  | empty => rfl
  | seen found =>
      show (lastCloseH n (transStepH st i found) i).toPlain
        = lastClose n (transStep st.toPlain i found) i
      rw [lastCloseH_toPlain, transStepH_toPlain]

theorem runPagesH_toPlain (n : Nat) :
    ∀ (rest : List PageObs) (i : Nat) (st : SegStateH),
      (runPagesH n st i rest).toPlain = runPages n st.toPlain i rest := by
  intro rest
  induction rest with
  | nil => intro i st; rfl
  | cons o rest' ih =>
      intro i st
      show (runPagesH n (stepPageH n st i o) (i + 1) rest').toPlain = _
      rw [ih, stepPageH_toPlain]
      rfl

/-- The instrumented run computes exactly the source's map. -/
theorem finalStateH_ranges (obs : List PageObs) :
    (finalStateH obs).fcr_ranges = segment obs := by
  have h := runPagesH_toPlain obs.length obs 0 initStateH
  have : (finalStateH obs).toPlain = runPages obs.length initState 0 obs := h
  calc (finalStateH obs).fcr_ranges = (finalStateH obs).toPlain.fcr_ranges := rfl
    _ = (runPages obs.length initState 0 obs).fcr_ranges := by rw [this]

theorem finalStateH_current (obs : List PageObs) :
    (finalStateH obs).current_fcr = (runPages obs.length initState 0 obs).current_fcr := by
  have h : (finalStateH obs).toPlain = runPages obs.length initState 0 obs :=
    runPagesH_toPlain obs.length obs 0 initStateH
  calc (finalStateH obs).current_fcr = (finalStateH obs).toPlain.current_fcr := rfl
    _ = _ := by rw [h]

theorem finalStateH_start (obs : List PageObs) :
    (finalStateH obs).start_page = (runPages obs.length initState 0 obs).start_page := by
  have h : (finalStateH obs).toPlain = runPages obs.length initState 0 obs :=
    runPagesH_toPlain obs.length obs 0 initStateH
  calc (finalStateH obs).start_page = (finalStateH obs).toPlain.start_page := rfl
    _ = _ := by rw [h]

/-! ### The ghost `firstD` field records the first detection page -/

theorem stepPageH_firstD_some {n i : Nat} {st : SegStateH} {f : Nat} (o : PageObs)
    (h : st.firstD = some f) : (stepPageH n st i o).firstD = some f := by
  have hlast : ∀ st' : SegStateH, st'.firstD = some f →
      (lastCloseH n st' i).firstD = some f := by
    intro st' h'
    unfold lastCloseH
    split
    · cases hc : st'.current_fcr <;> simp [hc, h']
    · exact h'
  cases o with
  | empty => exact h
  | seen found =>
      refine hlast _ ?_
      cases found with
      | none => exact h
      | some g =>
          show (if g ≠ "" ∧ st.current_fcr ≠ some g then closeOpenH st i g
              else st).firstD = some f
          by_cases hc : g ≠ "" ∧ st.current_fcr ≠ some g
          · rw [if_pos hc]
            simp [closeOpenH, h]
          · rw [if_neg hc]
            exact h

theorem runPagesH_firstD_some {n : Nat} :
    ∀ (rest : List PageObs) (i : Nat) (st : SegStateH) (f : Nat),
      st.firstD = some f → (runPagesH n st i rest).firstD = some f := by
  intro rest
  induction rest with
  | nil => intro i st f h; exact h
  | cons o rest' ih =>
      intro i st f h
      exact ih (i + 1) _ f (stepPageH_firstD_some o h)

theorem runPagesH_firstD_none {n : Nat} :
    ∀ (rest : List PageObs) (i : Nat) (st : SegStateH),
      st.firstD = none → st.current_fcr = none →
      (runPagesH n st i rest).firstD = firstDetectAux i rest := by
  intro rest
  induction rest with
  | nil => intro i st h _; exact h
  | cons o rest' ih =>
      intro i st h hcur
      show (runPagesH n (stepPageH n st i o) (i + 1) rest').firstD
        = firstDetectAux i (o :: rest')
      cases o with
      | empty =>
          show (runPagesH n st (i + 1) rest').firstD = firstDetectAux (i + 1) rest'
          exact ih (i + 1) st h hcur
      | seen found =>
          cases found with
          | none =>
              show (runPagesH n (lastCloseH n st i) (i + 1) rest').firstD
                = firstDetectAux (i + 1) rest'
              have hid : lastCloseH n st i = st := by
                unfold lastCloseH
                split
                · rw [hcur]
                · rfl
              rw [hid]
              exact ih (i + 1) st h hcur
          | some f =>
              by_cases hf : f = ""
              · subst hf
                have htrans : transStepH st i (some "") = st := by
                  show (if ("" : String) ≠ "" ∧ st.current_fcr ≠ some "" then
                      closeOpenH st i "" else st) = st
                  rw [if_neg (by simp)]
                have hid : lastCloseH n st i = st := by
                  unfold lastCloseH
                  split
                  · rw [hcur]
                  · rfl
                show (runPagesH n (lastCloseH n (transStepH st i (some "")) i)
                    (i + 1) rest').firstD = firstDetectAux i (PageObs.seen (some "") :: rest')
                rw [htrans, hid]
                have : firstDetectAux i (PageObs.seen (some "") :: rest')
                    = firstDetectAux (i + 1) rest' := by
                  simp [firstDetectAux, detects]
                rw [this]
                exact ih (i + 1) st h hcur
              · have hcond : f ≠ "" ∧ st.current_fcr ≠ some f := by
                  refine ⟨hf, ?_⟩
                  rw [hcur]
                  exact fun hx => Option.noConfusion hx
                have htrans : transStepH st i (some f) = closeOpenH st i f := by
                  show (if f ≠ "" ∧ st.current_fcr ≠ some f then closeOpenH st i f
                      else st) = closeOpenH st i f
                  rw [if_pos hcond]
                have hfd : (closeOpenH st i f).firstD = some i := by
                  simp [closeOpenH, h]
                have hstep : (stepPageH n st i (PageObs.seen (some f))).firstD
                    = some i := by
                  show (lastCloseH n (transStepH st i (some f)) i).firstD = some i
                  rw [htrans]
                  unfold lastCloseH
                  split
                  · cases hc : (closeOpenH st i f).current_fcr <;> simp [hc, hfd]
                  · exact hfd
                have : firstDetectAux i (PageObs.seen (some f) :: rest') = some i := by
                  simp [firstDetectAux, detects, hf]
                rw [this]
                exact runPagesH_firstD_some rest' (i + 1) _ i hstep

/-- The ghost `firstD` of the final state is the page of the first
detected identifier. -/
theorem finalStateH_firstD (obs : List PageObs) :
    (finalStateH obs).firstD = firstDetect obs :=
  runPagesH_firstD_none obs 0 initStateH rfl rfl

/-! ### Claim C3: which pages end up uncovered -/

theorem hInv_init : HInv 0 initStateH := by
  refine ⟨fun _ => ⟨rfl, rfl, rfl⟩, ?_⟩
  intro c hc
  simp [initStateH] at hc

theorem hInv_succ {i : Nat} {st : SegStateH} (h : HInv i st) : HInv (i + 1) st := by
  refine ⟨h.1, ?_⟩
  intro c hc
  obtain ⟨f0, h1, h2, h3, h4⟩ := h.2 c hc
  refine ⟨f0, h1, h2, by omega, ?_⟩
  intro j hj
  by_cases hji : j < i
  · exact h4 j hji
  · right; right; omega

theorem closeOpenH_hInv {i : Nat} {st : SegStateH} {f : String} (h : HInv i st) :
    HInv (i + 1) (closeOpenH st i f) := by
  cases hc : st.current_fcr with
  | none =>
      obtain ⟨hr, hh, hf⟩ := h.1 hc
      refine ⟨?_, ?_⟩
      · intro hnone
        simp [closeOpenH] at hnone
      · intro c' _
        refine ⟨i, ?_, ?_, ?_, ?_⟩
        · simp [closeOpenH, hf]
        · show i ≤ (closeOpenH st i f).start_page
          simp [closeOpenH]
        · show (closeOpenH st i f).start_page < i + 1
          simp [closeOpenH]
        · intro j hj
          by_cases hji : j < i
          · exact Or.inl hji
          · right; right
            show (closeOpenH st i f).start_page ≤ j
            simp only [closeOpenH]
            omega
  | some c =>
      obtain ⟨f0, hf0, hf0le, hstart, hcov⟩ := h.2 c hc
      refine ⟨?_, ?_⟩
      · intro hnone
        simp [closeOpenH] at hnone
      · intro c' _
        refine ⟨f0, ?_, ?_, ?_, ?_⟩
        · simp [closeOpenH, hf0]
        · show f0 ≤ (closeOpenH st i f).start_page
          simp only [closeOpenH]
          omega
        · show (closeOpenH st i f).start_page < i + 1
          simp only [closeOpenH]
          omega
        · intro j hj
          by_cases hji : j < i
          · rcases hcov j hji with h' | h' | h'
            · exact Or.inl h'
            · right; left
              obtain ⟨p, hp, hpc⟩ := h'
              refine ⟨p, ?_, hpc⟩
              show p ∈ (closeOpenH st i f).hist
              simp only [closeOpenH, hc]
              exact List.mem_append_left _ hp
            · right; left
              refine ⟨(c, st.start_page, i - 1), ?_, ?_⟩
              · show (c, st.start_page, i - 1) ∈ (closeOpenH st i f).hist
                simp only [closeOpenH, hc]
                exact List.mem_append_right _ (List.mem_singleton.2 rfl)
              · show st.start_page ≤ j ∧ j ≤ i - 1
                omega
          · right; right
            show (closeOpenH st i f).start_page ≤ j
            simp only [closeOpenH]
            omega

theorem transStepH_hInv {i : Nat} {st : SegStateH} {found : Option String}
    (h : HInv i st) : HInv (i + 1) (transStepH st i found) := by
  cases found with
  | none => exact hInv_succ h
  | some f =>
      show HInv (i + 1)
        (if f ≠ "" ∧ st.current_fcr ≠ some f then closeOpenH st i f else st)
      by_cases hc : f ≠ "" ∧ st.current_fcr ≠ some f
      · rw [if_pos hc]; exact closeOpenH_hInv h
      · rw [if_neg hc]; exact hInv_succ h

theorem lastCloseH_current (n : Nat) (st : SegStateH) (i : Nat) :
    (lastCloseH n st i).current_fcr = st.current_fcr := by
  unfold lastCloseH
  split
  · cases hc : st.current_fcr <;> simp [hc]
  · rfl

theorem lastCloseH_start (n : Nat) (st : SegStateH) (i : Nat) :
    (lastCloseH n st i).start_page = st.start_page := by
  unfold lastCloseH
  split
  · cases hc : st.current_fcr <;> simp [hc]
  · rfl

theorem lastCloseH_firstD (n : Nat) (st : SegStateH) (i : Nat) :
    (lastCloseH n st i).firstD = st.firstD := by
  unfold lastCloseH
  split
  · cases hc : st.current_fcr <;> simp [hc]
  · rfl

theorem lastCloseH_hist_mem (n : Nat) (st : SegStateH) (i : Nat)
    {p : String × Nat × Nat} (hp : p ∈ st.hist) : p ∈ (lastCloseH n st i).hist := by
  unfold lastCloseH
  split
  · cases hc : st.current_fcr with
    | none => simpa [hc] using hp
    | some c =>
        show p ∈ ({ st with
          fcr_ranges := dictInsert st.fcr_ranges c (st.start_page, i),
          hist := st.hist ++ [(c, st.start_page, i)] } : SegStateH).hist
        exact List.mem_append_left _ hp
  · exact hp

theorem hInv_disj {i : Nat} {st : SegStateH} (h : HInv i st) (j : Nat) (hj : j < i) :
    (∀ f, st.firstD = some f → j < f) ∨ (∃ p ∈ st.hist, covers p.2 j) ∨
    (∃ c, st.current_fcr = some c ∧ st.start_page ≤ j) := by
  cases hc : st.current_fcr with
  | none =>
      obtain ⟨_, _, hf⟩ := h.1 hc
      left
      intro f hf'
      rw [hf] at hf'
      cases hf'
  | some c =>
      obtain ⟨f0, hf0, _, _, hcov⟩ := h.2 c hc
      rcases hcov j hj with h' | h' | h'
      · left
        intro f hf'
        rw [hf0] at hf'
        injection hf' with hf'
        omega
      · exact Or.inr (Or.inl h')
      · exact Or.inr (Or.inr ⟨c, rfl, h'⟩)

theorem runPagesH_cover (n : Nat) :
    ∀ (rest : List PageObs) (i : Nat) (st : SegStateH),
      i + rest.length = n → HInv i st → ∀ j, j < n →
      (∀ f, (runPagesH n st i rest).firstD = some f → j < f) ∨
      (∃ p ∈ (runPagesH n st i rest).hist, covers p.2 j) ∨
      (∃ c, (runPagesH n st i rest).current_fcr = some c ∧
        (runPagesH n st i rest).start_page ≤ j) := by
  intro rest
  induction rest with
  | nil =>
      intro i st hlen h j hj
      simp only [List.length_nil, Nat.add_zero] at hlen
      subst hlen
      exact hInv_disj h j hj
  | cons o rest' ih =>
      intro i st hlen h j hj
      simp only [List.length_cons] at hlen
      cases o with
      | empty =>
          exact ih (i + 1) st (by omega) (hInv_succ h) j hj
      | seen found =>
          have h1 : HInv (i + 1) (transStepH st i found) := transStepH_hInv h
          by_cases hi : i = n - 1
          · have hrest : rest' = [] := by
              cases rest' with
              | nil => rfl
              | cons a l => simp only [List.length_cons] at hlen; omega
            subst hrest
            have hd := hInv_disj h1 j (by omega)
            rcases hd with hd | hd | hd
            · left
              intro f hf
              have hf' : (lastCloseH n (transStepH st i found) i).firstD = some f := hf
              rw [lastCloseH_firstD] at hf'
              exact hd f hf'
            · right; left
              obtain ⟨p, hp, hc⟩ := hd
              exact ⟨p, lastCloseH_hist_mem n _ i hp, hc⟩
            · right; right
              obtain ⟨c, hc, hs⟩ := hd
              refine ⟨c, ?_, ?_⟩
              · show (lastCloseH n (transStepH st i found) i).current_fcr = some c
                rw [lastCloseH_current]
                exact hc
              · show (lastCloseH n (transStepH st i found) i).start_page ≤ j
                rw [lastCloseH_start]
                exact hs
          · have hid : lastCloseH n (transStepH st i found) i = transStepH st i found := by
              unfold lastCloseH
              rw [if_neg hi]
            have hrw : runPagesH n st i (PageObs.seen found :: rest')
                = runPagesH n (transStepH st i found) (i + 1) rest' := by
              show runPagesH n (lastCloseH n (transStepH st i found) i) (i + 1) rest' = _
              rw [hid]
            rw [hrw]
            exact ih (i + 1) _ (by omega) h1 j hj

/-- Amended claim C3: every page index in `[0, total_pages)` that is
not covered by any range of the returned map either lies strictly
before the page of the first detected identifier, or lies inside a
range that was emitted during the run but later overwritten in the map
(last-write-wins on a re-appearing identifier), or lies inside the
final still-open range (which is dropped when the final page's
extracted text is empty). -/
theorem uncovered_before_first_detection_or_lost (obs : List PageObs) (j : Nat)
    (hj : j < obs.length)
    (_hunc : ∀ p ∈ segment obs, ¬ covers p.2 j) :
    (∀ f, firstDetect obs = some f → j < f) ∨
    (∃ p ∈ histOf obs, covers p.2 j) ∨
    (∃ c, (runPages obs.length initState 0 obs).current_fcr = some c ∧
      (runPages obs.length initState 0 obs).start_page ≤ j) := by
  have h := runPagesH_cover obs.length obs 0 initStateH (by simp) hInv_init j hj
  rcases h with h | h | h
  · left
    intro f hf
    refine h f ?_
    show (finalStateH obs).firstD = some f
    rw [finalStateH_firstD]
    exact hf
  · exact Or.inr (Or.inl h)
  · right; right
    obtain ⟨c, hc, hs⟩ := h
    refine ⟨c, ?_, ?_⟩
    · rw [← finalStateH_current]; exact hc
    · rw [← finalStateH_start]; exact hs

/-- Counterexample to claim C3 as stated: on spec Scenario C
`[(0,"A"),(1,"B"),(2,"A")]` page 0 is covered by no returned range, yet
the first identifier was detected on page 0 itself, so page 0 does not
lie strictly before the first detection page. -/
theorem uncovered_page_not_before_first_detection :
    (∀ p ∈ segment [PageObs.seen (some ("A")), PageObs.seen (some ("B")),
        PageObs.seen (some ("A"))], ¬ covers p.2 0) ∧
    firstDetect [PageObs.seen (some ("A")), PageObs.seen (some ("B")),
        PageObs.seen (some ("A"))] = some 0 ∧
    ¬ (∀ f, firstDetect [PageObs.seen (some ("A")), PageObs.seen (some ("B")),
        PageObs.seen (some ("A"))] = some f → 0 < f) := by
  refine ⟨by decide, by decide, ?_⟩
  intro h
  exact absurd (h 0 (by decide)) (by omega)

/-- Witness for the amended C3, on spec Scenario C at page 0: the page
is uncovered and the disjunction holds (page 0 lies in the overwritten
emission `A:(0,0)` recorded in the history). -/
theorem uncovered_before_first_detection_or_lost_witness :
    0 < 3 ∧
    (∀ p ∈ segment [PageObs.seen (some ("A")), PageObs.seen (some ("B")),
        PageObs.seen (some ("A"))], ¬ covers p.2 0) ∧
    ((∀ f, firstDetect [PageObs.seen (some ("A")), PageObs.seen (some ("B")),
        PageObs.seen (some ("A"))] = some f → 0 < f) ∨
     (∃ p ∈ histOf [PageObs.seen (some ("A")), PageObs.seen (some ("B")),
        PageObs.seen (some ("A"))], covers p.2 0) ∨
     (∃ c, (runPages 3 initState 0 [PageObs.seen (some ("A")),
        PageObs.seen (some ("B")), PageObs.seen (some ("A"))]).current_fcr = some c ∧
       (runPages 3 initState 0 [PageObs.seen (some ("A")), PageObs.seen (some ("B")),
        PageObs.seen (some ("A"))]).start_page ≤ 0)) := by
  refine ⟨by decide, by decide, ?_⟩
  exact uncovered_before_first_detection_or_lost [PageObs.seen (some ("A")),
    PageObs.seen (some ("B")), PageObs.seen (some ("A"))] 0 (by decide) (by decide)

/-! ### Claim C5: the splitter -/

theorem mem_pageIndices {s e i : Nat} (hse : s ≤ e) :
    i ∈ pageIndices s e ↔ covers (s, e) i := by
  unfold pageIndices
  simp only [List.mem_map, List.mem_range]
  constructor
  · rintro ⟨j, hj, rfl⟩
    exact ⟨by omega, by omega⟩
  · rintro ⟨h1, h2⟩
    exact ⟨i - s, by omega, by omega⟩

theorem nodup_pageIndices (s e : Nat) : (pageIndices s e).Nodup :=
  (List.nodup_range _).map (fun a b h => by omega)

theorem slice_eq_drop_take {α : Type} [Inhabited α] (doc : List α) (s e : Nat)
    (he : e < doc.length) :
    (pageIndices s e).map (fun i => doc.getD i default)
      = (doc.drop s).take (e + 1 - s) := by
  apply List.ext_getElem?
  intro j
  rw [pageIndices, List.map_map]
  by_cases hj : j < e + 1 - s
  · rw [List.getElem?_map, List.getElem?_range hj, List.getElem?_take_of_lt hj,
      List.getElem?_drop]
    have hsj : s + j < doc.length := by omega
    simp only [Option.map_some', Function.comp_apply]
    rw [List.getD_eq_getElem?_getD, List.getElem?_eq_getElem hsj]
    simp
  · rw [List.getElem?_map]
    have h1 : (List.range (e + 1 - s))[j]? = none :=
      List.getElem?_eq_none (by simpa using by omega)
    have h2 : ((doc.drop s).take (e + 1 - s))[j]? = none :=
      List.getElem?_eq_none (by
        rw [List.length_take, List.length_drop]
        omega)
    rw [h1, h2]
    rfl

theorem blocks_pairwise {m : List (String × Nat × Nat)} {n : Nat}
    (hg : RangesGood n m) :
    (m.map (fun e => pageIndices e.2.1 e.2.2)).Pairwise List.Disjoint := by
  rw [List.pairwise_map]
  have hkeys : m.Pairwise (fun a b => a.1 ≠ b.1) := List.pairwise_map.mp hg.2.2
  refine hkeys.imp_of_mem ?_
  intro a b ha hb hne x hxa hxb
  obtain ⟨h1a, h1b⟩ := (mem_pageIndices (hg.1 a ha).1).1 hxa
  obtain ⟨h2a, h2b⟩ := (mem_pageIndices (hg.1 b hb).1).1 hxb
  rcases hg.2.1 a ha b hb hne with h | h <;> omega

theorem allIdx_nodup {m : List (String × Nat × Nat)} {n : Nat} (hg : RangesGood n m) :
    ((m.map (fun e => pageIndices e.2.1 e.2.2)).flatten).Nodup := by
  rw [List.nodup_flatten]
  refine ⟨?_, blocks_pairwise hg⟩
  intro l hl
  rcases List.mem_map.1 hl with ⟨e, _, rfl⟩
  exact nodup_pageIndices _ _

theorem mem_allIdx {m : List (String × Nat × Nat)} {n : Nat} (hg : RangesGood n m)
    (i : Nat) :
    i ∈ (m.map (fun e => pageIndices e.2.1 e.2.2)).flatten ↔ ∃ e ∈ m, covers e.2 i := by
  rw [List.mem_flatten]
  constructor
  · rintro ⟨l, hl, hil⟩
    rcases List.mem_map.1 hl with ⟨e, he, rfl⟩
    exact ⟨e, he, (mem_pageIndices (hg.1 e he).1).1 hil⟩
  · rintro ⟨e, he, hcov⟩
    exact ⟨pageIndices e.2.1 e.2.2, List.mem_map_of_mem _ he,
      (mem_pageIndices (hg.1 e he).1).2 hcov⟩

/-- Amended claim C5: for a `RangeMap` produced by the segmenter on a
document of matching length, `split_pdf_by_fcr_ranges` produces one
output per map entry, in map iteration order, with the derived
filename, containing exactly the source pages `start` through `end`
inclusive in original order; no source page index appears in two
outputs, and the concatenation of the outputs' pages (in map iteration
order) is a permutation of the covered pages of the original.  (The
original claim asked for equality with the covered pages in original
document order; the counterexample shows map iteration order breaks
that when a range was overwritten.) -/
theorem split_outputs_slices_and_reconstruct {α : Type} [Inhabited α]
    (doc : List α) (obs : List PageObs) (m : List (String × Nat × Nat)) (dir : String)
    (hm : m = segment obs) (hlen : obs.length = doc.length) :
    ((split_pdf_by_fcr_ranges doc m dir).map OutFile.filename
        = m.map (fun e => fcrFileName e.1)) ∧
    ((split_pdf_by_fcr_ranges doc m dir).map OutFile.pages
        = m.map (fun e => (doc.drop e.2.1).take (e.2.2 + 1 - e.2.1))) ∧
    (m.map (fun e => pageIndices e.2.1 e.2.2)).Pairwise List.Disjoint ∧
    ((split_pdf_by_fcr_ranges doc m dir).map OutFile.pages).flatten.Perm
      (coveredPages doc m) := by
  have hg : RangesGood doc.length m := by
    rw [hm, ← hlen]
    exact segment_ranges_good obs
  have hpages : (split_pdf_by_fcr_ranges doc m dir).map OutFile.pages
      = m.map (fun e => (pageIndices e.2.1 e.2.2).map (fun i => doc.getD i default)) := by
    unfold split_pdf_by_fcr_ranges
    rw [List.map_map]
    rfl
  refine ⟨?_, ?_, blocks_pairwise hg, ?_⟩
  · unfold split_pdf_by_fcr_ranges
    rw [List.map_map]
    rfl
  · rw [hpages]
    refine List.map_congr_left ?_
    intro e he
    exact slice_eq_drop_take doc _ _ (by have := (hg.1 e he).2; omega)
  · rw [hpages]
    have hflat : (m.map (fun e =>
          (pageIndices e.2.1 e.2.2).map (fun i => doc.getD i default))).flatten
        = ((m.map (fun e => pageIndices e.2.1 e.2.2)).flatten).map
            (fun i => doc.getD i default) := by
      rw [List.map_flatten, List.map_map]
      rfl
    rw [hflat]
    unfold coveredPages
    refine List.Perm.map _ ?_
    refine (List.perm_ext_iff_of_nodup (allIdx_nodup hg)
      ((List.nodup_range _).filter _)).2 ?_
    intro a
    rw [mem_allIdx hg, List.mem_filter, List.mem_range]
    constructor
    · rintro ⟨e, he, hcov⟩
      refine ⟨?_, ?_⟩
      · have := (hg.1 e he).2
        have := hcov.2
        omega
      · exact decide_eq_true ⟨e, he, hcov⟩
    · rintro ⟨_, hd⟩
      exact of_decide_eq_true hd

/-- Counterexample to claim C5 as stated: splitting `[10, 20, 30]` by
the map the segmenter produces on Scenario C (`[A:(2,2), B:(1,1)]`,
where `A`'s entry was overwritten in place) and concatenating the
outputs in map iteration order yields `[30, 20]`, not the covered pages
`[20, 30]` of the original in original order. -/
theorem split_concat_not_in_original_order :
    ((split_pdf_by_fcr_ranges ([10, 20, 30] : List Nat)
        (segment [PageObs.seen (some ("A")), PageObs.seen (some ("B")),
          PageObs.seen (some ("A"))]) ("out")).map OutFile.pages).flatten = [30, 20] ∧
    coveredPages ([10, 20, 30] : List Nat)
        (segment [PageObs.seen (some ("A")), PageObs.seen (some ("B")),
          PageObs.seen (some ("A"))]) = [20, 30] ∧
    ¬ ((split_pdf_by_fcr_ranges ([10, 20, 30] : List Nat)
        (segment [PageObs.seen (some ("A")), PageObs.seen (some ("B")),
          PageObs.seen (some ("A"))]) ("out")).map OutFile.pages).flatten
      = coveredPages ([10, 20, 30] : List Nat)
        (segment [PageObs.seen (some ("A")), PageObs.seen (some ("B")),
          PageObs.seen (some ("A"))]) := by
  exact ⟨by decide, by decide, by decide⟩

/-- Witness for the amended C5, on spec Scenario A with the document
`[10, 20, 30, 40, 50]`: the concatenated outputs are a permutation of
the covered pages. -/
theorem split_outputs_slices_and_reconstruct_witness :
    ((split_pdf_by_fcr_ranges ([10, 20, 30, 40, 50] : List Nat)
        (segment [PageObs.seen (some ("X")), PageObs.seen (some ("X")),
          PageObs.seen (some ("Y")), PageObs.seen none, PageObs.seen (some ("Y"))])
        ("out")).map OutFile.pages).flatten.Perm
      (coveredPages ([10, 20, 30, 40, 50] : List Nat)
        (segment [PageObs.seen (some ("X")), PageObs.seen (some ("X")),
          PageObs.seen (some ("Y")), PageObs.seen none, PageObs.seen (some ("Y"))])) :=
  (split_outputs_slices_and_reconstruct ([10, 20, 30, 40, 50] : List Nat)
    [PageObs.seen (some ("X")), PageObs.seen (some ("X")), PageObs.seen (some ("Y")),
      PageObs.seen none, PageObs.seen (some ("Y"))] _ ("out") rfl rfl).2.2.2

/-! ### Claims C6 and C7: the page-text extractor -/

/-- Claim C6: `extract_text_from_page` never propagates a failure.
Whenever a diagnostic is reported the returned text is empty, and each
failure mode — direct extraction raising, the temporary write raising,
rasterization raising, OCR raising — reports a diagnostic and returns
the empty string. -/
theorem extract_never_propagates {Img : Type} (env : PageEnv Img) :
    ((extract_text_from_page env).errorReported = true →
      (extract_text_from_page env).text = "") ∧
    (env.extract_text = none →
      extract_text_from_page env
        = { text := "", errorReported := true, ocrRan := false }) ∧
    (∀ t, env.extract_text = some t → ¬ (t ≠ "" ∧ pystrip t ≠ "") →
      env.write_ok = false →
      extract_text_from_page env
        = { text := "", errorReported := true, ocrRan := false }) ∧
    (∀ t, env.extract_text = some t → ¬ (t ≠ "" ∧ pystrip t ≠ "") →
      env.write_ok = true → env.convert_from_path 300 "jpeg" = none →
      extract_text_from_page env
        = { text := "", errorReported := true, ocrRan := false }) ∧
    (∀ t img rest, env.extract_text = some t → ¬ (t ≠ "" ∧ pystrip t ≠ "") →
      env.write_ok = true → env.convert_from_path 300 "jpeg" = some (img :: rest) →
      env.image_to_string img "eng+ara" = none →
      extract_text_from_page env
        = { text := "", errorReported := true, ocrRan := true }) := by
  refine ⟨?_, ?_, ?_, ?_, ?_⟩
  · unfold extract_text_from_page
    split
    · intro _; rfl
    · split
      · intro h; simp at h
      · split
        · intro _; rfl
        · split
          · intro _; rfl
          · intro h; simp at h
          · split
            · intro _; rfl
            · intro h; simp at h
  · intro h
    unfold extract_text_from_page
    rw [h]
  · intro t ht h1 hw
    unfold extract_text_from_page
    simp only [ht]
    rw [if_neg h1, if_pos hw]
  · intro t ht h1 hw hc
    unfold extract_text_from_page
    simp only [ht]
    rw [if_neg h1, if_neg (by simp [hw]), hc]
  · intro t img rest ht h1 hw hc hocr
    unfold extract_text_from_page
    simp only [ht]
    rw [if_neg h1, if_neg (by simp [hw])]
    simp only [hc]
    rw [hocr]

/-- Witness for C6: an environment whose direct extraction raises
yields the empty string with a reported diagnostic. -/
theorem extract_never_propagates_witness :
    ((@PageEnv.mk Unit none true (fun _ _ => some [()])
        (fun _ _ => some ("x"))).extract_text = none) ∧
    extract_text_from_page (@PageEnv.mk Unit none true (fun _ _ => some [()])
        (fun _ _ => some ("x")))
      = { text := "", errorReported := true, ocrRan := false } := by
  refine ⟨rfl, ?_⟩
  exact (extract_never_propagates (@PageEnv.mk Unit none true
    (fun _ _ => some [()]) (fun _ _ => some ("x")))).2.1 rfl

/-- Claim C7: when the direct text is non-blank after trimming it is
returned verbatim and OCR does not run; when it is blank, the fallback
rasterizes at 300 DPI and OCR runs with languages `eng+ara`, and its
output is returned. -/
theorem direct_text_verbatim_or_ocr {Img : Type} (env : PageEnv Img) (t : String)
    (ht : env.extract_text = some t) :
    (pystrip t ≠ "" →
      extract_text_from_page env
        = { text := t, errorReported := false, ocrRan := false }) ∧
    (pystrip t = "" → env.write_ok = true →
      ∀ img rest s, env.convert_from_path 300 "jpeg" = some (img :: rest) →
        env.image_to_string img "eng+ara" = some s →
        extract_text_from_page env
          = { text := s, errorReported := false, ocrRan := true }) := by
  constructor
  · intro hs
    have hne : t ≠ "" := by
      intro h0
      rw [h0] at hs
      exact hs rfl
    unfold extract_text_from_page
    simp only [ht]
    rw [if_pos (show t ≠ "" ∧ pystrip t ≠ "" from ⟨hne, hs⟩)]
  · intro hs hw img rest s hconv hocr
    unfold extract_text_from_page
    simp only [ht]
    rw [if_neg (fun h => h.2 hs), if_neg (by simp [hw])]
    simp only [hconv]
    rw [hocr]

/-- Witness for C7, both branches: direct text `" hi "` is returned
verbatim without OCR; blank direct text `"  "` triggers OCR whose
output `"ocr"` is returned. -/
theorem direct_text_verbatim_or_ocr_witness :
    (pystrip (" hi ") ≠ "" ∧
      extract_text_from_page (@PageEnv.mk Unit (some (" hi ")) true
          (fun _ _ => some [()]) (fun _ _ => some ("ocr")))
        = { text := " hi ", errorReported := false, ocrRan := false }) ∧
    (pystrip ("  ") = "" ∧
      extract_text_from_page (@PageEnv.mk Unit (some ("  ")) true
          (fun _ _ => some [()]) (fun _ _ => some ("ocr")))
        = { text := "ocr", errorReported := false, ocrRan := true }) := by
  refine ⟨⟨by decide, ?_⟩, ⟨by decide, ?_⟩⟩
  · exact (direct_text_verbatim_or_ocr (@PageEnv.mk Unit (some (" hi ")) true
      (fun _ _ => some [()]) (fun _ _ => some ("ocr"))) (" hi ") rfl).1 (by decide)
  · exact (direct_text_verbatim_or_ocr (@PageEnv.mk Unit (some ("  ")) true
      (fun _ _ => some [()]) (fun _ _ => some ("ocr"))) ("  ") rfl).2 (by decide) rfl
      () [] ("ocr") rfl rfl

/-! ### Claim C8: filename sanitization -/

/-- Claim C8: the output filename is obtained by replacing every
character outside the safe set (word characters, hyphen, underscore,
period, space) with an underscore, prefixing `FCR_` and appending
`.pdf`; in particular `"AB/12(3)"` yields `"FCR_AB_12_3_.pdf"`. -/
theorem filename_sanitization :
    (∀ s : String, (clean_fcr_num s).data
        = s.data.map (fun c =>
            if pyIsWord c || c = '-' || c = '_' || c = '.' || c = ' ' then c
            else '_')) ∧
    (∀ s : String, fcrFileName s = "FCR_" ++ clean_fcr_num s ++ ".pdf") ∧
    fcrFileName ("AB/12(3)") = "FCR_AB_12_3_.pdf" := by
  exact ⟨fun s => rfl, fun s => rfl, by decide⟩

/-- Witness for C8 at the identifier of spec Scenario D. -/
theorem filename_sanitization_witness :
    (clean_fcr_num ("AB/12(3)")).data
      = ("AB/12(3)").data.map (fun c =>
          if pyIsWord c || c = '-' || c = '_' || c = '.' || c = ' ' then c
          else '_') :=
  filename_sanitization.1 ("AB/12(3)")

/-! ### Claim C9: the matcher's dispatch -/

theorem findFirst_cons (tryAt : List Char → Option (List Char)) (c : Char)
    (cs : List Char) :
    findFirst tryAt (c :: cs) =
      match tryAt (c :: cs) with
      | some g => some g
      | none => findFirst tryAt cs := rfl

theorem findFirst_eq_none_iff (tryAt : List Char → Option (List Char)) :
    ∀ cs : List Char, findFirst tryAt cs = none ↔ ∀ k, tryAt (cs.drop k) = none := by
  intro cs
  induction cs with
  | nil =>
      constructor
      · intro h k
        rw [List.drop_nil]
        exact h
      · intro h
        have h0 := h 0
        rwa [List.drop_nil] at h0
  | cons c cs' ih =>
      rw [findFirst_cons]
      cases htry : tryAt (c :: cs') with
      | some g =>
          constructor
          · intro h
            simp at h
          · intro h
            have h0 := h 0
            rw [List.drop_zero] at h0
            rw [h0] at htry
            cases htry
      | none =>
          constructor
          · intro h k
            cases k with
            | zero =>
                rw [List.drop_zero]
                exact htry
            | succ k' => exact ih.1 h k'
          · intro h
            show findFirst tryAt cs' = none
            exact ih.2 (fun k => h (k + 1))

theorem findFirst_eq_some_iff (tryAt : List Char → Option (List Char)) :
    ∀ (cs g : List Char),
      findFirst tryAt cs = some g ↔
      ∃ k, tryAt (cs.drop k) = some g ∧ ∀ j, j < k → tryAt (cs.drop j) = none := by
  intro cs
  induction cs with
  | nil =>
      intro g
      constructor
      · intro h
        refine ⟨0, ?_, fun j hj => absurd hj (by omega)⟩
        rw [List.drop_nil]
        exact h
      · rintro ⟨k, hk, _⟩
        rw [List.drop_nil] at hk
        exact hk
  | cons c cs' ih =>
      intro g
      rw [findFirst_cons]
      cases htry : tryAt (c :: cs') with
      | some g' =>
          constructor
          · intro h
            have hg : g' = g := by simpa using h
            refine ⟨0, ?_, fun j hj => absurd hj (by omega)⟩
            rw [List.drop_zero, htry, hg]
          · rintro ⟨k, hk, hlt⟩
            cases k with
            | zero =>
                rw [List.drop_zero, htry] at hk
                simpa using hk
            | succ k' =>
                have h0 := hlt 0 (by omega)
                rw [List.drop_zero] at h0
                rw [h0] at htry
                cases htry
      | none =>
          constructor
          · intro h
            obtain ⟨k, hk, hlt⟩ := (ih g).1 h
            refine ⟨k + 1, hk, ?_⟩
            intro j hj
            cases j with
            | zero =>
                rw [List.drop_zero]
                exact htry
            | succ j' => exact hlt j' (by omega)
          · rintro ⟨k, hk, hlt⟩
            cases k with
            | zero =>
                rw [List.drop_zero, htry] at hk
                cases hk
            | succ k' =>
                show findFirst tryAt cs' = some g
                exact (ih g).2 ⟨k', hk, fun j hj => hlt (j + 1) (by omega)⟩

/-- Claim C9: the matcher tries the three patterns in fixed priority
order; the returned identifier is the first capture group of the match
at the leftmost matching position of the earliest pattern that matches
anywhere in the text; once an earlier pattern has matched, later
patterns are not consulted; and the result is `none` exactly when no
pattern matches at any position. -/
theorem matcher_priority_and_leftmost (t : String) :
    (∀ g, findFirst tryP1 t.data = some g → matchFcr t = some (String.mk g)) ∧
    (findFirst tryP1 t.data = none →
      ∀ g, findFirst tryP2 t.data = some g → matchFcr t = some (String.mk g)) ∧
    (findFirst tryP1 t.data = none → findFirst tryP2 t.data = none →
      ∀ g, findFirst tryP3 t.data = some g → matchFcr t = some (String.mk g)) ∧
    (matchFcr t = none ↔
      (∀ k, tryP1 (t.data.drop k) = none) ∧ (∀ k, tryP2 (t.data.drop k) = none) ∧
      (∀ k, tryP3 (t.data.drop k) = none)) ∧
    (∀ (tryAt : List Char → Option (List Char)) (g : List Char),
      findFirst tryAt t.data = some g ↔
      ∃ k, tryAt (t.data.drop k) = some g ∧
        ∀ j, j < k → tryAt (t.data.drop j) = none) := by
  refine ⟨?_, ?_, ?_, ?_, fun tryAt g => findFirst_eq_some_iff tryAt t.data g⟩
  · intro g hg
    unfold matchFcr
    rw [hg]
  · intro h1 g hg
    unfold matchFcr
    rw [h1, hg]
  · intro h1 h2 g hg
    unfold matchFcr
    rw [h1, h2, hg]
  · constructor
    · intro h
      unfold matchFcr at h
      cases h1 : findFirst tryP1 t.data with
      | some g => rw [h1] at h; cases h
      | none =>
          rw [h1] at h
          cases h2 : findFirst tryP2 t.data with
          | some g => rw [h2] at h; cases h
          | none =>
              rw [h2] at h
              cases h3 : findFirst tryP3 t.data with
              | some g => rw [h3] at h; cases h
              | none =>
                  exact ⟨(findFirst_eq_none_iff tryP1 t.data).1 h1,
                    (findFirst_eq_none_iff tryP2 t.data).1 h2,
                    (findFirst_eq_none_iff tryP3 t.data).1 h3⟩
    · rintro ⟨hp1, hp2, hp3⟩
      unfold matchFcr
      rw [(findFirst_eq_none_iff tryP1 t.data).2 hp1,
        (findFirst_eq_none_iff tryP2 t.data).2 hp2,
        (findFirst_eq_none_iff tryP3 t.data).2 hp3]

/-- Witness for C9, on `"FCR NO 9 RECEIPT NO 8"`: pattern 1 (the
receipt-number pattern) matches, leftmost at the `RECEIPT` token, so
the matcher returns its capture `"8"` even though pattern 2 would have
matched earlier in the text. -/
theorem matcher_priority_and_leftmost_witness :
    findFirst tryP1 ("FCR NO 9 RECEIPT NO 8").data = some ("8").data ∧
    matchFcr ("FCR NO 9 RECEIPT NO 8") = some ("8") := by
  refine ⟨by decide, ?_⟩
  exact (matcher_priority_and_leftmost ("FCR NO 9 RECEIPT NO 8")).1
    ("8").data (by decide)

/-! ### Claim C10: one output per entry, no deduplication -/

/-- Claim C10: the splitter returns exactly one output per map entry,
in map iteration order, with the derived filename and path; when two
distinct identifiers sanitize to the same filename both outputs still
appear, undeduplicated, with identical names and paths, the later disk
write overwrites the earlier one, and `create_zip` therefore receives
two entries with the same name (both holding the later content). -/
theorem split_one_output_per_entry_no_dedup :
    (∀ (α : Type) [Inhabited α] (doc : List α) (m : List (String × Nat × Nat))
        (dir : String),
      (split_pdf_by_fcr_ranges doc m dir).length = m.length ∧
      (split_pdf_by_fcr_ranges doc m dir).map OutFile.filename
        = m.map (fun e => fcrFileName e.1) ∧
      (split_pdf_by_fcr_ranges doc m dir).map OutFile.path
        = m.map (fun e => dir ++ "/" ++ fcrFileName e.1)) ∧
    ((split_pdf_by_fcr_ranges ([10, 20] : List Nat)
        [("A/B", 0, 0), ("A)B", 1, 1)] ("out")).map OutFile.filename
      = ["FCR_A_B.pdf", "FCR_A_B.pdf"]) ∧
    (create_zip (split_pdf_by_fcr_ranges ([10, 20] : List Nat)
        [("A/B", 0, 0), ("A)B", 1, 1)] ("out"))
        (writeAll [] (split_pdf_by_fcr_ranges ([10, 20] : List Nat)
          [("A/B", 0, 0), ("A)B", 1, 1)] ("out")))
      = [("FCR_A_B.pdf", some [20]), ("FCR_A_B.pdf", some [20])]) := by
  refine ⟨?_, by decide, by decide⟩
  intro α _ doc m dir
  refine ⟨by simp [split_pdf_by_fcr_ranges], ?_, ?_⟩
  · unfold split_pdf_by_fcr_ranges
    rw [List.map_map]
    rfl
  · unfold split_pdf_by_fcr_ranges
    rw [List.map_map]
    rfl

/-- Witness for C10 at a concrete one-entry map. -/
theorem split_one_output_per_entry_no_dedup_witness :
    (split_pdf_by_fcr_ranges ([10, 20] : List Nat) [("K", 0, 1)] ("d")).length
      = [(("K" : String), (0 : Nat), (1 : Nat))].length :=
  (split_one_output_per_entry_no_dedup.1 Nat [10, 20] [("K", 0, 1)] ("d")).1

end FCR
